import Mathlib

/-!
Verification of the dovewarden replication-scheduling core.

The development shallowly embeds the Go sources:
* `InMemoryQueue.Enqueue` / `InMemoryQueue.Dequeue` / `InMemoryQueue.Stats`
  over a miniredis sorted set (`ZADD LT`, `ZPOPMIN`), with scores embedded as
  rationals (the claims under study do not hinge on IEEE-754 rounding; the
  non-finite-factor claim gets a dedicated float-shaped model `GoFloat`),
* the body of `WorkerPool.worker` (handler error path),
* `BackgroundReplicationService.runReplication` (one reconciler pass),
* `DoveadmEventHandler.Handle` (cursor read, sync call, cursor/time writes).

Backend operations in the Go code are calls into a redis client that can fail;
each embedded operation therefore takes the backend outcome (`Option String`,
`some msg` = the backend call returned that error) as an explicit argument,
and fallible results carry an `err : Option String` field mirroring Go's
`error` return value (`none` = nil).
-/

namespace Dovewarden

abbrev Member := String

abbrev Score := ℚ

/-- Entries of the `{ns}:sync_tasks` sorted set: member/score pairs.
The backend keeps at most one entry per member; arbitrary lists are allowed
here and theorems that need the invariant assume it explicitly. -/
abbrev SSet := List (Member × Score)

/-- Score stored for a member (the first entry with that key), if any. -/
def scoreOf : SSet → Member → Option Score
  | [], _ => none
  | (v, t) :: rest, u => if v = u then some t else scoreOf rest u

/-- Redis `ZADD key LT score member` on the set: adds the member when absent;
when present, updates the score only if the new score is strictly lower. -/
def zaddLT : SSet → Member → Score → SSet
  | [], u, s => [(u, s)]
  | (v, t) :: rest, u, s =>
    if v = u then (if s < t then (u, s) :: rest else (v, t) :: rest)
    else (v, t) :: zaddLT rest u s

/-- The entry Redis `ZPOPMIN` would pop: lowest score, ties broken by
lexicographically smallest member. `none` iff the set is empty. -/
def zminEntry? : SSet → Option (Member × Score)
  | [] => none
  | (u, s) :: rest =>
    match zminEntry? rest with
    | none => some (u, s)
    | some (v, t) => if s < t ∨ (s = t ∧ u ≤ v) then some (u, s) else some (v, t)

/-- Removal of one exact entry from the set, as `ZPOPMIN` removes the
element it pops: drops the first occurrence of the pair, leaving everything
else untouched. -/
def removeEntry : SSet → (Member × Score) → SSet
  | [], _ => []
  | p :: rest, e => if p = e then rest else p :: removeEntry rest e

/-- State of an `InMemoryQueue`: the sorted set plus the two atomic
operation counters (`enqueueCount`, `dequeueCount`). -/
structure QueueState where
  entries : SSet
  enqueueCount : ℕ
  dequeueCount : ℕ
deriving DecidableEq

/-- Result of `InMemoryQueue.Enqueue`: the returned `error` and the queue
state afterwards. -/
structure EnqResult where
  err : Option String
  state : QueueState
deriving DecidableEq

/-- Result of `InMemoryQueue.Dequeue`: the returned username, the returned
`error`, and the queue state afterwards. -/
structure DeqResult where
  user : Member
  err : Option String
  state : QueueState
deriving DecidableEq

/-- The score `InMemoryQueue.Enqueue` computes:
`timestamp / priorityFactor`, after coercing a non-positive factor to 1.0
("Safety: avoid division by zero"). `now` is the wall-clock time in seconds. -/
def enqueueScore (now factor : ℚ) : ℚ :=
  now / (if factor ≤ 0 then 1 else factor)

/-- `InMemoryQueue.Enqueue ctx username priorityFactor` at wall-clock time
`now`. `backendErr` is the outcome of the `ZAddLT` call: on backend error the
method returns a wrapped error and changes nothing; on success it stores the
score via `ZADD LT` and increments `enqueueCount`. -/
def Enqueue (q : QueueState) (now : ℚ) (username : Member) (priorityFactor : ℚ)
    (backendErr : Option String) : EnqResult :=
  match backendErr with
  | some e => ⟨some ("failed to enqueue event: " ++ e), q⟩
  | none =>
    ⟨none,
      { entries := zaddLT q.entries username (enqueueScore now priorityFactor)
        enqueueCount := q.enqueueCount + 1
        dequeueCount := q.dequeueCount }⟩

/-- `InMemoryQueue.Dequeue ctx`. `backendErr` is the outcome of the `ZPopMin`
call: on backend error the method returns `("", wrapped error)`; on an empty
set it returns `("", nil)` without touching the counter; otherwise it removes
the popped entry, increments `dequeueCount`, and returns the member. -/
def Dequeue (q : QueueState) (backendErr : Option String) : DeqResult :=
  match backendErr with
  | some e => ⟨"", some ("failed to dequeue: " ++ e), q⟩
  | none =>
    match zminEntry? q.entries with
    | none => ⟨"", none, q⟩
    | some (u, s) =>
      ⟨u, none,
        { entries := removeEntry q.entries (u, s)
          enqueueCount := q.enqueueCount
          dequeueCount := q.dequeueCount + 1 }⟩

/-- A sequence of successful `Enqueue` calls for the same user with no
intervening `Dequeue`; `calls` lists the `(wall-clock time, priorityFactor)`
of each call in order. -/
def enqueueAll (q : QueueState) (u : Member) : List (ℚ × ℚ) → QueueState
  | [] => q
  | (t, f) :: rest => enqueueAll (Enqueue q t u f none).state u rest

/-- Result of one iteration of the body of `WorkerPool.worker`:
whether the worker goroutine returned, and the queue state afterwards. -/
structure WorkerStepResult where
  exited : Bool
  state : QueueState
deriving DecidableEq

/-- One iteration of the loop body of `WorkerPool.worker`.
`job` is what `takeJob` yielded (`none` = `jobsCh` closed, worker returns).
For a job, the worker calls `handler.Handle`; `handlerErr` says whether that
call returned an error. On handler error the worker calls
`Enqueue(ctx, username, 1.0)` whose backend outcome is `requeueBackendErr`;
a requeue failure is only logged. In every job case the loop continues. -/
def workerStep (q : QueueState) (now : ℚ) (job : Option Member)
    (handlerErr : Bool) (requeueBackendErr : Option String) : WorkerStepResult :=
  match job with
  | none => ⟨true, q⟩
  | some username =>
    if handlerErr then ⟨false, (Enqueue q now username 1 requeueBackendErr).state⟩
    else ⟨false, q⟩

/-- Outcome of `GetLastReplicationTime` for one user, as observed by
`BackgroundReplicationService.runReplication`: the key is absent (zero time,
nil error), a non-zero time `t` is stored, or the read failed (the Go method
then returns the zero time together with the error). -/
inductive LastSyncResult
  | absent
  | present (t : ℚ)
  | fetchError
deriving DecidableEq

/-- The skip test of `runReplication`:
`!lastReplication.IsZero() && time.Since(lastReplication) < s.threshold`.
A read error leaves `lastReplication` at the zero time, so it never skips. -/
def shouldSkip (now threshold : ℚ) : LastSyncResult → Bool
  | .present t => decide (now - t < threshold)
  | .absent => false
  | .fetchError => false

/-- The per-user loop of `BackgroundReplicationService.runReplication` over
the users returned by `ListUsers`, at wall-clock time `now`. `lastSync` gives
each user's `GetLastReplicationTime` outcome and `enqErr` the backend outcome
of that user's `Enqueue` call. Returns the queue state after the pass and the
list of users successfully enqueued (each with priority factor 1.0); errors
are counted/logged in the source and never abort the pass. -/
def runReplicationPass (now threshold : ℚ) (lastSync : Member → LastSyncResult)
    (enqErr : Member → Option String) :
    QueueState → List Member → QueueState × List Member
  | q, [] => (q, [])
  | q, u :: rest =>
    if shouldSkip now threshold (lastSync u) then
      runReplicationPass now threshold lastSync enqErr q rest
    else
      let r := Enqueue q now u 1 (enqErr u)
      let p := runReplicationPass now threshold lastSync enqErr r.state rest
      (p.1, if r.err = none then u :: p.2 else p.2)

/-- Collaborator outcomes seen by one `DoveadmEventHandler.Handle` call:
the `GetReplicationState` result (error, or the stored cursor), the
`client.Sync` result (error, or `resp.State`, `""` meaning the response
carried no new cursor), and the outcomes of the `SetReplicationState` and
`SetLastReplicationTime` writes (which the source only logs). -/
structure HandlerEnv where
  getStateResult : Except String String
  syncResult : Except String String
  setStateErr : Option String
  setTimeErr : Option String

/-- Observable outcome of `DoveadmEventHandler.Handle`: the returned `error`,
the cursor string passed to `client.Sync` (`some` = the sync call was made),
the value `SetReplicationState` was called with (if called), and whether
`SetLastReplicationTime` was called. -/
structure HandleResult where
  err : Option String
  syncState : Option String
  setStateCalled : Option String
  setTimeCalled : Bool
deriving DecidableEq

/-- `DoveadmEventHandler.Handle`: read the stored cursor (a read failure is
logged and treated as the empty cursor), call `client.Sync` with it
(propagating a sync error), then on success write the new cursor when the
response contains one and always write the last-sync time; write failures
are logged and do not affect the returned error. -/
def Handle (env : HandlerEnv) : HandleResult :=
  let state :=
    match env.getStateResult with
    | Except.error _ => ""
    | Except.ok s => s
  match env.syncResult with
  | Except.error e =>
    { err := some e, syncState := some state
      setStateCalled := none, setTimeCalled := false }
  | Except.ok newState =>
    { err := none
      syncState := some state
      setStateCalled := if newState = "" then none else some newState
      setTimeCalled := true }

/-- Go `float64` values as they matter to `Enqueue`: finite values embedded
as rationals, the two infinities, and NaN. -/
inductive GoFloat
  | finite (q : ℚ)
  | posInf
  | negInf
  | nan
deriving DecidableEq

/-- The Go comparison `x <= 0` on `float64`: false for NaN and `+Inf`,
true for `-Inf`. -/
def GoFloat.le0 : GoFloat → Bool
  | finite q => decide (q ≤ 0)
  | posInf => false
  | negInf => true
  | nan => false

/-- The Go comparison `x < y` on `float64`: any comparison with NaN is
false. -/
def GoFloat.lt : GoFloat → GoFloat → Bool
  | nan, _ => false
  | _, nan => false
  | finite a, finite b => decide (a < b)
  | finite _, posInf => true
  | finite _, negInf => false
  | negInf, finite _ => true
  | posInf, finite _ => false
  | negInf, posInf => true
  | posInf, negInf => false
  | posInf, posInf => false
  | negInf, negInf => false

/-- IEEE-754 `float64` division as far as `Enqueue`'s `timestamp / factor`
can exercise it (the sign of a zero quotient is abstracted away: `ℚ` has a
single zero). -/
def GoFloat.div : GoFloat → GoFloat → GoFloat
  | nan, _ => nan
  | _, nan => nan
  | finite a, finite b =>
    if b = 0 then (if a = 0 then nan else if 0 < a then posInf else negInf)
    else finite (a / b)
  | finite _, posInf => finite 0
  | finite _, negInf => finite 0
  | posInf, finite b => if 0 ≤ b then posInf else negInf
  | negInf, finite b => if 0 ≤ b then negInf else posInf
  | posInf, posInf => nan
  | posInf, negInf => nan
  | negInf, posInf => nan
  | negInf, negInf => nan

/-- `ZADD LT` over float scores: the miniredis backend stores whatever score
the client sends (its score parser accepts `NaN` and `±Inf` spellings), and
the LT update test uses the float `<`. -/
def zaddLTF : List (Member × GoFloat) → Member → GoFloat → List (Member × GoFloat)
  | [], u, s => [(u, s)]
  | (v, t) :: rest, u, s =>
    if v = u then (if GoFloat.lt s t then (u, s) :: rest else (v, t) :: rest)
    else (v, t) :: zaddLTF rest u s

/-- Result of `EnqueueF`: the returned `error` and the sorted-set entries. -/
structure EnqFResult where
  err : Option String
  entries : List (Member × GoFloat)
deriving DecidableEq

/-- `InMemoryQueue.Enqueue` with the score arithmetic kept in `float64`
(IEEE semantics via `GoFloat`), exactly mirroring the source: coerce
`priorityFactor <= 0` to 1.0, compute `timestamp / priorityFactor`, and hand
the score to `ZAddLT` — there is no finiteness check anywhere on the path. -/
def EnqueueF (entries : List (Member × GoFloat)) (now : ℚ) (username : Member)
    (priorityFactor : GoFloat) (backendErr : Option String) : EnqFResult :=
  let factor := if priorityFactor.le0 then GoFloat.finite 1 else priorityFactor
  let score := GoFloat.div (GoFloat.finite now) factor
  match backendErr with
  | some e => ⟨some ("failed to enqueue event: " ++ e), entries⟩
  | none => ⟨none, zaddLTF entries username score⟩



theorem scoreOf_zaddLT_absent (m : SSet) (u : Member) (s : Score)
    (h : scoreOf m u = none) : scoreOf (zaddLT m u s) u = some s := by
  induction m with
  | nil => simp [zaddLT, scoreOf]
  | cons p rest ih =>
    obtain ⟨v, t⟩ := p
    by_cases hv : v = u
    · simp [scoreOf, hv] at h
    · simp only [zaddLT, scoreOf, hv, if_false, if_neg hv] at h ⊢
      exact ih h

theorem scoreOf_zaddLT_present (m : SSet) (u : Member) (s t : Score)
    (h : scoreOf m u = some t) : scoreOf (zaddLT m u s) u = some (min s t) := by
  induction m with
  | nil => simp [scoreOf] at h
  | cons p rest ih =>
    obtain ⟨v, w⟩ := p
    by_cases hv : v = u
    · subst hv
      have hw : w = t := by simpa [scoreOf] using h
      subst hw
      by_cases hs : s < w
      · simp [zaddLT, scoreOf, hs, min_eq_left hs.le]
      · simp [zaddLT, scoreOf, hs, min_eq_right (not_lt.mp hs)]
    · simp only [zaddLT, scoreOf, hv, if_neg hv] at h ⊢
      exact ih h

theorem scoreOf_zaddLT_other (m : SSet) (u v : Member) (s : Score) (hvu : v ≠ u) :
    scoreOf (zaddLT m u s) v = scoreOf m v := by
  induction m with
  | nil => simp [zaddLT, scoreOf, Ne.symm hvu]
  | cons p rest ih =>
    obtain ⟨w, t⟩ := p
    by_cases hw : w = u
    · subst hw
      by_cases hs : s < t <;>
        simp [zaddLT, scoreOf, hs, Ne.symm hvu]
    · by_cases hwv : w = v <;> simp [zaddLT, scoreOf, hw, hwv, hvu, ih]

theorem mem_zaddLT_other (m : SSet) (u v : Member) (s t : Score) (hvu : v ≠ u) :
    (v, t) ∈ zaddLT m u s ↔ (v, t) ∈ m := by
  induction m with
  | nil => simp [zaddLT, hvu]
  | cons p rest ih =>
    obtain ⟨w, r⟩ := p
    by_cases hw : w = u
    · subst hw
      by_cases hs : s < r <;> simp [zaddLT, hs, hvu, ih]
    · simp [zaddLT, hw, ih]

theorem keys_mem_zaddLT (m : SSet) (u w : Member) (s : Score)
    (h : w ∈ m.map Prod.fst) : w ∈ (zaddLT m u s).map Prod.fst := by
  induction m with
  | nil => simp at h
  | cons p rest ih =>
    obtain ⟨v, t⟩ := p
    by_cases hv : v = u
    · subst hv
      by_cases hs : s < t <;> simpa [zaddLT, hs] using h
    · simp only [List.map_cons, List.mem_cons] at h
      rcases h with h | h
      · simp [zaddLT, hv, h]
      · simp [zaddLT, hv, ih h]

theorem perm_cons_removeEntry (m : SSet) (e : Member × Score) (h : e ∈ m) :
    m.Perm (e :: removeEntry m e) := by
  induction m with
  | nil => simp at h
  | cons p rest ih =>
    by_cases hp : p = e
    · subst hp
      simp [removeEntry]
    · have hrest : e ∈ rest := by
        rcases List.mem_cons.mp h with h1 | h1
        · exact absurd h1.symm hp
        · exact h1
      have h1 : (p :: rest).Perm (p :: (e :: removeEntry rest e)) := (ih hrest).cons p
      have h2 : (p :: (e :: removeEntry rest e)).Perm (e :: (p :: removeEntry rest e)) :=
        List.Perm.swap e p (removeEntry rest e)
      have h3 : e :: (p :: removeEntry rest e) = e :: removeEntry (p :: rest) e := by
        simp [removeEntry, hp]
      exact h3 ▸ h1.trans h2

theorem mem_removeEntry_of_ne (m : SSet) (a e : Member × Score) (hne : a ≠ e) :
    a ∈ removeEntry m e ↔ a ∈ m := by
  induction m with
  | nil => simp [removeEntry]
  | cons p rest ih =>
    by_cases hp : p = e
    · subst hp
      simp only [removeEntry, if_pos rfl, List.mem_cons]
      constructor
      · exact Or.inr
      · rintro (rfl | h1)
        · exact absurd rfl hne
        · exact h1
    · simp only [removeEntry, if_neg hp, List.mem_cons, ih]

theorem zminEntry?_isSome (p : Member × Score) (rest : SSet) :
    (zminEntry? (p :: rest)).isSome = true := by
  obtain ⟨u, s⟩ := p
  simp only [zminEntry?]
  cases zminEntry? rest with
  | none => rfl
  | some q =>
    obtain ⟨v, t⟩ := q
    dsimp only
    split <;> rfl

theorem zminEntry?_mem (m : SSet) (e : Member × Score) (h : zminEntry? m = some e) :
    e ∈ m := by
  induction m generalizing e with
  | nil => simp [zminEntry?] at h
  | cons p rest ih =>
    obtain ⟨u, s⟩ := p
    simp only [zminEntry?] at h
    cases hr : zminEntry? rest with
    | none =>
      rw [hr] at h
      simp only [Option.some.injEq] at h
      subst h
      exact List.mem_cons_self _ _
    | some q =>
      obtain ⟨v, t⟩ := q
      rw [hr] at h
      dsimp only at h
      by_cases hc : s < t ∨ (s = t ∧ u ≤ v)
      · rw [if_pos hc] at h
        simp only [Option.some.injEq] at h
        subst h
        exact List.mem_cons_self _ _
      · rw [if_neg hc] at h
        simp only [Option.some.injEq] at h
        subst h
        exact List.mem_cons_of_mem _ (ih _ hr)

theorem zminEntry?_le (m : SSet) (u : Member) (s : Score)
    (h : zminEntry? m = some (u, s)) :
    ∀ v t, (v, t) ∈ m → s ≤ t := by
  induction m generalizing u s with
  | nil => simp [zminEntry?] at h
  | cons p rest ih =>
    obtain ⟨w, r⟩ := p
    intro v t hvt
    simp only [zminEntry?] at h
    cases hr : zminEntry? rest with
    | none =>
      rw [hr] at h
      have hrest : rest = [] := by
        cases rest with
        | nil => rfl
        | cons q qs =>
          have := zminEntry?_isSome q qs
          rw [hr] at this
          simp at this
      subst hrest
      simp only [Option.some.injEq, Prod.mk.injEq] at h
      obtain ⟨rfl, rfl⟩ := h
      simp only [List.mem_singleton, Prod.mk.injEq] at hvt
      obtain ⟨rfl, rfl⟩ := hvt
      exact le_refl _
    | some q =>
      obtain ⟨w2, r2⟩ := q
      rw [hr] at h
      dsimp only at h
      by_cases hc : r < r2 ∨ (r = r2 ∧ w ≤ w2)
      · rw [if_pos hc] at h
        simp only [Option.some.injEq, Prod.mk.injEq] at h
        obtain ⟨rfl, rfl⟩ := h
        rcases List.mem_cons.mp hvt with he | hrest2
        · simp only [Prod.mk.injEq] at he
          obtain ⟨rfl, rfl⟩ := he
          exact le_refl _
        · have h2 := ih w2 r2 hr v t hrest2
          rcases hc with hlt | ⟨heq, _⟩
          · exact le_trans hlt.le h2
          · exact le_trans heq.le h2
      · rw [if_neg hc] at h
        simp only [Option.some.injEq, Prod.mk.injEq] at h
        obtain ⟨rfl, rfl⟩ := h
        push_neg at hc
        rcases List.mem_cons.mp hvt with he | hrest2
        · simp only [Prod.mk.injEq] at he
          obtain ⟨rfl, rfl⟩ := he
          exact hc.1
        · exact ih w2 r2 hr v t hrest2



theorem enqueueScore_of_pos (now f : ℚ) (h : 0 < f) : enqueueScore now f = now / f := by
  simp [enqueueScore, not_le.mpr h]

theorem enqueueScore_of_nonpos (now f : ℚ) (h : f ≤ 0) : enqueueScore now f = now := by
  simp [enqueueScore, h]

theorem enqueueScore_one (now : ℚ) : enqueueScore now 1 = now := by
  norm_num [enqueueScore]

theorem scoreOf_enqueueAll (u : Member) (calls : List (ℚ × ℚ)) :
    ∀ (q : QueueState) (cur : ℚ), scoreOf q.entries u = some cur →
      scoreOf (enqueueAll q u calls).entries u =
        some (calls.foldl (fun acc p => min acc (enqueueScore p.1 p.2)) cur) := by
  induction calls with
  | nil =>
    intro q cur h
    simpa [enqueueAll] using h
  | cons c rest ih =>
    intro q cur h
    obtain ⟨t, f⟩ := c
    have h1 : scoreOf (Enqueue q t u f none).state.entries u
        = some (min (enqueueScore t f) cur) := by
      simpa [Enqueue] using scoreOf_zaddLT_present q.entries u (enqueueScore t f) cur h
    rw [enqueueAll, ih _ _ h1, List.foldl_cons]
    dsimp only
    rw [min_comm (enqueueScore t f) cur]

theorem foldl_min_div_of_pos (l : List (ℚ × ℚ)) :
    ∀ a : ℚ, (∀ p ∈ l, 0 < p.2) →
      l.foldl (fun acc p => min acc (enqueueScore p.1 p.2)) a =
        l.foldl (fun acc p => min acc (p.1 / p.2)) a := by
  induction l with
  | nil => intro a _; rfl
  | cons c rest ih =>
    intro a h
    obtain ⟨t, f⟩ := c
    simp only [List.foldl_cons]
    rw [enqueueScore_of_pos t f (h (t, f) (List.mem_cons_self _ _))]
    exact ih _ fun p hp => h p (List.mem_cons_of_mem _ hp)

/-- C1: for a user `u` absent from the sorted set, any sequence of successful
`Enqueue(u, fᵢ)` calls at wall-clock times `tᵢ` with positive factors and no
intervening `Dequeue` leaves `u`'s stored score equal to the minimum over `i`
of `tᵢ / fᵢ`; moreover a later enqueue whose computed score is at least the
stored score leaves the stored score unchanged. -/
theorem enqueue_sequence_stores_min_score (q : QueueState) (u : Member)
    (t1 f1 : ℚ) (rest : List (ℚ × ℚ))
    (habsent : scoreOf q.entries u = none) (hf1 : 0 < f1)
    (hrest : ∀ p ∈ rest, 0 < p.2) :
    scoreOf (enqueueAll q u ((t1, f1) :: rest)).entries u =
      some (rest.foldl (fun acc p => min acc (p.1 / p.2)) (t1 / f1)) ∧
    (∀ (q2 : QueueState) (now f cur : ℚ), 0 < f →
      scoreOf q2.entries u = some cur → cur ≤ now / f →
      scoreOf (Enqueue q2 now u f none).state.entries u = some cur) := by
  constructor
  · have h1 : scoreOf (Enqueue q t1 u f1 none).state.entries u
        = some (enqueueScore t1 f1) := by
      simpa [Enqueue] using scoreOf_zaddLT_absent q.entries u (enqueueScore t1 f1) habsent
    rw [enqueueAll, scoreOf_enqueueAll u rest _ _ h1,
      foldl_min_div_of_pos rest _ hrest, enqueueScore_of_pos t1 f1 hf1]
  · intro q2 now f cur hf hcur hle
    have h2 := scoreOf_zaddLT_present q2.entries u (enqueueScore now f) cur hcur
    rw [enqueueScore_of_pos now f hf] at h2
    simp only [Enqueue]
    rw [enqueueScore_of_pos now f hf, h2, min_eq_right hle]

theorem enqueue_sequence_stores_min_score_witness :
    scoreOf (enqueueAll ⟨[], 0, 0⟩ "u" [((10 : ℚ), (1 : ℚ)), (6, 2)]).entries "u" =
      some 3 := by
  have h := (enqueue_sequence_stores_min_score ⟨[], 0, 0⟩ "u" 10 1 [(6, 2)]
    (by simp [scoreOf]) (by norm_num) (by norm_num)).1
  rw [h]
  norm_num [List.foldl, min_def]

/-- C2: the score Enqueue submits equals nowSeconds / priorityFactor when the
factor is positive and nowSeconds (factor coerced to 1.0) when it is
non-positive, and a non-positive factor never makes Enqueue return an
error. -/
theorem enqueue_score_and_nonpositive_factor (q : QueueState) (now f : ℚ) (u : Member) :
    (0 < f → enqueueScore now f = now / f) ∧
    (f ≤ 0 → enqueueScore now f = now) ∧
    (Enqueue q now u f none).err = none ∧
    (Enqueue q now u f none).state.entries = zaddLT q.entries u (enqueueScore now f) :=
  ⟨fun h => enqueueScore_of_pos now f h, fun h => enqueueScore_of_nonpos now f h, rfl, rfl⟩

theorem enqueue_score_and_nonpositive_factor_witness :
    enqueueScore 8 2 = 4 ∧ enqueueScore 8 (-3) = 8 ∧
    (Enqueue ⟨[], 0, 0⟩ 8 "u" (-3) none).err = none := by
  obtain ⟨-, h2, h3, -⟩ := enqueue_score_and_nonpositive_factor ⟨[], 0, 0⟩ 8 (-3) "u"
  obtain ⟨g1, -, -, -⟩ := enqueue_score_and_nonpositive_factor ⟨[], 0, 0⟩ 8 2 "u"
  refine ⟨?_, h2 (by norm_num), h3⟩
  rw [g1 (by norm_num)]
  norm_num

/-- C3: Dequeue pops the member with the lowest score: on an empty set it
returns the empty string with a nil error; otherwise the popped member is a
stored entry whose score is ≤ every stored score; and when exactly users A
and B are present with sA < sB, the first Dequeue returns A and the next
returns B. -/
theorem dequeue_returns_lowest_score (q : QueueState) (A B : Member) (sA sB : ℚ)
    (e d : ℕ) (hlt : sA < sB) :
    (q.entries = [] → Dequeue q none = ⟨"", none, q⟩) ∧
    (∀ u s, zminEntry? q.entries = some (u, s) →
      (Dequeue q none).user = u ∧ (Dequeue q none).err = none ∧
      (u, s) ∈ q.entries ∧ ∀ v t, (v, t) ∈ q.entries → s ≤ t) ∧
    ((Dequeue ⟨[(A, sA), (B, sB)], e, d⟩ none).user = A ∧
     (Dequeue (Dequeue ⟨[(A, sA), (B, sB)], e, d⟩ none).state none).user = B) := by
  refine ⟨?_, ?_, ?_, ?_⟩
  · intro h
    simp [Dequeue, h, zminEntry?]
  · intro u s h
    exact ⟨by simp [Dequeue, h], by simp [Dequeue, h],
      zminEntry?_mem _ _ h, zminEntry?_le _ _ _ h⟩
  · simp [Dequeue, zminEntry?, hlt]
  · simp [Dequeue, zminEntry?, removeEntry, hlt]

theorem dequeue_returns_lowest_score_witness :
    (Dequeue ⟨[("a", 1), ("b", 2)], 0, 0⟩ none).user = "a" ∧
    (Dequeue (Dequeue ⟨[("a", 1), ("b", 2)], 0, 0⟩ none).state none).user = "b" :=
  (dequeue_returns_lowest_score ⟨[], 0, 0⟩ "a" "b" 1 2 0 0 (by norm_num)).2.2

/-- C4: with exactly one entry resident, two Dequeue calls — each a single
atomic ZPOPMIN in the backend, so any concurrent interleaving is one of the
two (identical) sequential orders — return the user exactly once: the first
call yields the user, the second the empty string with a nil error. -/
theorem dequeue_single_entry_exactly_once (u : Member) (s : ℚ) (e d : ℕ) :
    (Dequeue ⟨[(u, s)], e, d⟩ none).user = u ∧
    (Dequeue ⟨[(u, s)], e, d⟩ none).err = none ∧
    (Dequeue (Dequeue ⟨[(u, s)], e, d⟩ none).state none).user = "" ∧
    (Dequeue (Dequeue ⟨[(u, s)], e, d⟩ none).state none).err = none := by
  simp [Dequeue, zminEntry?, removeEntry]

/-- C5 as stated is false: enqueueing the empty-string member and then
dequeueing it makes Dequeue succeed and increment the dequeues counter while
returning the empty string, so the counter is not incremented "exactly when
a Dequeue call succeeds and returns a non-empty user". -/
theorem stats_counter_counterexample :
    (Dequeue (Enqueue ⟨[], 0, 0⟩ 5 "" 1 none).state none).user = "" ∧
    (Dequeue (Enqueue ⟨[], 0, 0⟩ 5 "" 1 none).state none).err = none ∧
    (Dequeue (Enqueue ⟨[], 0, 0⟩ 5 "" 1 none).state none).state.dequeueCount = 1 := by
  decide

/-- C5 amended: the enqueues counter is incremented exactly when an Enqueue
call succeeds; the dequeues counter is incremented exactly when a Dequeue
call succeeds in popping an element (whose member it returns — a non-empty
user whenever all stored members are non-empty); a Dequeue on an empty queue
and failed backend operations increment neither counter. -/
theorem stats_counters_amended (q : QueueState) (now f : ℚ) (u : Member) (e : String) :
    ((Enqueue q now u f none).err = none ∧
     (Enqueue q now u f none).state.enqueueCount = q.enqueueCount + 1 ∧
     (Enqueue q now u f none).state.dequeueCount = q.dequeueCount) ∧
    ((Enqueue q now u f (some e)).err ≠ none ∧
     (Enqueue q now u f (some e)).state = q) ∧
    ((Dequeue q (some e)).err ≠ none ∧ (Dequeue q (some e)).state = q) ∧
    (q.entries = [] → Dequeue q none = ⟨"", none, q⟩) ∧
    (∀ u2 s, zminEntry? q.entries = some (u2, s) →
      (Dequeue q none).user = u2 ∧ (Dequeue q none).err = none ∧
      (Dequeue q none).state.dequeueCount = q.dequeueCount + 1 ∧
      (Dequeue q none).state.enqueueCount = q.enqueueCount) := by
  refine ⟨⟨rfl, rfl, rfl⟩, ⟨by simp [Enqueue], rfl⟩, ⟨by simp [Dequeue], rfl⟩, ?_, ?_⟩
  · intro h
    simp [Dequeue, h, zminEntry?]
  · intro u2 s h
    simp [Dequeue, h]

theorem stats_counters_amended_witness :
    (Dequeue ⟨[("a", 2)], 3, 4⟩ none).state.dequeueCount = 5 ∧
    (Enqueue ⟨[], 0, 0⟩ 1 "a" 1 none).state.enqueueCount = 1 :=
  ⟨((stats_counters_amended ⟨[("a", 2)], 3, 4⟩ 1 1 "a" "x").2.2.2.2 "a" 2 (by decide)).2.2.1,
    (stats_counters_amended ⟨[], 0, 0⟩ 1 1 "a" "x").1.2.1⟩

/-- C6: on a handler error the worker re-enqueues the same user with
priority factor 1.0 (so the stored score is the wall-clock timestamp) and
keeps looping; a handler error — and even a failing re-enqueue, which is
only logged — never makes the worker exit. A successful handler call also
keeps the worker looping. -/
theorem worker_requeues_on_handler_error (q : QueueState) (now : ℚ) (u : Member) (e : String) :
    ((workerStep q now (some u) true none).exited = false ∧
     (workerStep q now (some u) true none).state.entries =
       zaddLT q.entries u now ∧
     (workerStep q now (some u) true none).state.entries =
       zaddLT q.entries u (enqueueScore now 1)) ∧
    ((workerStep q now (some u) true (some e)).exited = false ∧
     (workerStep q now (some u) true (some e)).state = q) ∧
    ((workerStep q now (some u) false none).exited = false ∧
     (workerStep q now (some u) false none).state = q) := by
  refine ⟨⟨rfl, ?_, rfl⟩, ⟨rfl, rfl⟩, ⟨rfl, rfl⟩⟩
  simp [workerStep, Enqueue, enqueueScore_one]

theorem runReplicationPass_spec (now th : ℚ) (ls : Member → LastSyncResult)
    (users : List Member) :
    ∀ q : QueueState,
      (runReplicationPass now th ls (fun _ => none) q users).2 =
        users.filter (fun u => !shouldSkip now th (ls u)) ∧
      (runReplicationPass now th ls (fun _ => none) q users).1.entries =
        (users.filter (fun u => !shouldSkip now th (ls u))).foldl
          (fun m u => zaddLT m u now) q.entries := by
  induction users with
  | nil =>
    intro q
    simp [runReplicationPass]
  | cons u rest ih =>
    intro q
    cases h : shouldSkip now th (ls u) with
    | true => simpa [runReplicationPass, h] using ih q
    | false =>
      have h1 := ih (Enqueue q now u 1 none).state
      have hent : (Enqueue q now u 1 none).state.entries = zaddLT q.entries u now := by
        simp [Enqueue, enqueueScore_one]
      rw [hent] at h1
      constructor
      · simpa [runReplicationPass, h, Enqueue] using h1.1
      · simpa [runReplicationPass, h, Enqueue] using h1.2

/-- C7: in a reconciler pass, every user returned by the user listing is
enqueued with priority factor 1.0 (so the stored score is the current time)
unless a non-zero last-sync time whose age is strictly below the threshold
is stored, in which case the user is skipped; a per-user read error leaves
the zero time, so the pass continues and that user is still enqueued. -/
theorem reconciler_pass_enqueues_unless_fresh (now th : ℚ)
    (ls : Member → LastSyncResult) (q : QueueState) (users : List Member) :
    (runReplicationPass now th ls (fun _ => none) q users).2 =
      users.filter (fun u => !shouldSkip now th (ls u)) ∧
    (runReplicationPass now th ls (fun _ => none) q users).1.entries =
      (users.filter (fun u => !shouldSkip now th (ls u))).foldl
        (fun m u => zaddLT m u now) q.entries ∧
    (∀ t, shouldSkip now th (LastSyncResult.present t) = decide (now - t < th)) ∧
    shouldSkip now th LastSyncResult.absent = false ∧
    shouldSkip now th LastSyncResult.fetchError = false ∧
    enqueueScore now 1 = now :=
  ⟨(runReplicationPass_spec now th ls users q).1,
    (runReplicationPass_spec now th ls users q).2,
    fun _ => rfl, rfl, rfl, enqueueScore_one now⟩

/-- C8: Handle returns an error iff the external sync call fails; a cursor
read failure is treated as the empty cursor and the sync still proceeds; on
sync success the new cursor is written only when the response contains one,
the last-sync time is always written, and the write outcomes never change
the returned error. -/
theorem handler_error_iff_sync_fails (env : HandlerEnv) :
    ((Handle env).err = none ↔ ∃ s, env.syncResult = Except.ok s) ∧
    (∀ e, env.syncResult = Except.error e → (Handle env).err = some e) ∧
    (∀ e, env.getStateResult = Except.error e → (Handle env).syncState = some "") ∧
    (∀ s, env.getStateResult = Except.ok s → (Handle env).syncState = some s) ∧
    (∀ ns, env.syncResult = Except.ok ns →
      (Handle env).err = none ∧
      (Handle env).setTimeCalled = true ∧
      (Handle env).setStateCalled = (if ns = "" then none else some ns)) ∧
    (∀ a b, Handle ⟨env.getStateResult, env.syncResult, a, b⟩ = Handle env) := by
  obtain ⟨gs, sy, se, te⟩ := env
  cases sy <;> cases gs <;> simp [Handle]

theorem handler_error_iff_sync_fails_witness :
    (Handle ⟨Except.error "readfail", Except.ok "c2", some "w1", some "w2"⟩).err = none ∧
    (Handle ⟨Except.error "readfail", Except.ok "c2", some "w1", some "w2"⟩).syncState = some "" ∧
    (Handle ⟨Except.error "readfail", Except.ok "c2", some "w1", some "w2"⟩).setStateCalled = some "c2" ∧
    (Handle ⟨Except.error "readfail", Except.ok "c2", some "w1", some "w2"⟩).setTimeCalled = true := by
  obtain ⟨-, -, h3, -, h5, -⟩ :=
    handler_error_iff_sync_fails ⟨Except.error "readfail", Except.ok "c2", some "w1", some "w2"⟩
  have h5c := h5 "c2" rfl
  refine ⟨h5c.1, h3 "readfail" rfl, ?_, h5c.2.1⟩
  rw [h5c.2.2]
  simp

/-- C9 as stated is false: Enqueue performs no finiteness check, so a +Inf
priority factor passes the non-positive test, yields score
nowSeconds / +Inf = 0, and the call succeeds with a nil error, storing an
entry computed from the non-finite factor. -/
theorem nonfinite_factor_counterexample :
    (EnqueueF [] 100 "u1" GoFloat.posInf none).err = none ∧
    (EnqueueF [] 100 "u1" GoFloat.posInf none).entries = [("u1", GoFloat.finite 0)] := by
  decide

/-- C9 amended: non-finite factors are not rejected: Enqueue returns a nil
error for NaN, +Inf and -Inf. -Inf is caught by the non-positive check and
coerced to 1.0 (score = nowSeconds); +Inf passes the check and yields score
0; NaN passes the check and yields a NaN score handed to the backend. -/
theorem nonfinite_factor_amended (m : List (Member × GoFloat)) (now : ℚ) (u : Member) :
    ((EnqueueF m now u GoFloat.posInf none).err = none ∧
     (EnqueueF m now u GoFloat.posInf none).entries = zaddLTF m u (GoFloat.finite 0)) ∧
    ((EnqueueF m now u GoFloat.negInf none).err = none ∧
     (EnqueueF m now u GoFloat.negInf none).entries = zaddLTF m u (GoFloat.finite now)) ∧
    ((EnqueueF m now u GoFloat.nan none).err = none ∧
     (EnqueueF m now u GoFloat.nan none).entries = zaddLTF m u GoFloat.nan) := by
  refine ⟨⟨rfl, ?_⟩, ⟨rfl, ?_⟩, ⟨rfl, ?_⟩⟩
  · simp [EnqueueF, GoFloat.le0, GoFloat.div]
  · simp [EnqueueF, GoFloat.le0, GoFloat.div]
  · simp [EnqueueF, GoFloat.le0, GoFloat.div]

/-- C10: Enqueue never removes a member and leaves every other member's
entry unchanged; Dequeue removes exactly the one entry it returns and leaves
every other member's entry unchanged. -/
theorem queue_ops_frame (q : QueueState) (now f : ℚ) (u : Member) :
    ((∀ v t, v ≠ u →
       ((v, t) ∈ (Enqueue q now u f none).state.entries ↔ (v, t) ∈ q.entries)) ∧
     (∀ w, w ∈ q.entries.map Prod.fst →
       w ∈ (Enqueue q now u f none).state.entries.map Prod.fst)) ∧
    (∀ u2 s, zminEntry? q.entries = some (u2, s) →
      (Dequeue q none).user = u2 ∧
      q.entries.Perm ((u2, s) :: (Dequeue q none).state.entries) ∧
      (∀ v t, v ≠ u2 →
        ((v, t) ∈ (Dequeue q none).state.entries ↔ (v, t) ∈ q.entries))) := by
  refine ⟨⟨?_, ?_⟩, ?_⟩
  · intro v t hvu
    exact mem_zaddLT_other q.entries u v (enqueueScore now f) t hvu
  · intro w hw
    exact keys_mem_zaddLT q.entries u w _ hw
  · intro u2 s h
    have hmem := zminEntry?_mem _ _ h
    refine ⟨by simp [Dequeue, h], ?_, ?_⟩
    · simpa [Dequeue, h] using perm_cons_removeEntry q.entries (u2, s) hmem
    · intro v t hvu
      have hne : (v, t) ≠ (u2, s) := fun hh => hvu (congrArg Prod.fst hh)
      simp only [Dequeue, h]
      exact mem_removeEntry_of_ne q.entries (v, t) (u2, s) hne

theorem queue_ops_frame_witness :
    ("b", (2 : ℚ)) ∈ (Enqueue ⟨[("b", 2)], 0, 0⟩ 5 "a" 1 none).state.entries ∧
    (Dequeue ⟨[("a", 1), ("b", 2)], 3, 4⟩ none).user = "a" :=
  ⟨((queue_ops_frame ⟨[("b", 2)], 0, 0⟩ 5 1 "a").1.1 "b" 2 (by decide)).mpr (by decide),
    ((queue_ops_frame ⟨[("a", 1), ("b", 2)], 3, 4⟩ 5 1 "x").2 "a" 1 (by decide)).1⟩

end Dovewarden
